import Mathlib

/-!
# Verification of the polyrc core against its specification

This file gives a shallow embedding of the polyrc core (the Rule IR,
the format codecs, the store and the merge engine) and proves, or refutes,
the specification's claims about it.

Conventions of the embedding:
* Rust `String` is Lean `String`; Rust byte-lexicographic string comparison
  is modelled by codepoint-lexicographic comparison on `String.data`
  (UTF-8 byte order and codepoint order agree).
* The filesystem is modelled as an association list from path (list of
  segments) to file content; directory scans iterate in sorted filename
  order, as the code's `WalkDir ... sort_by_file_name` does.
* Store record (de)serialization is performed by an external YAML library;
  a record file is therefore modelled as either a well-formed `Rule` or a
  malformed blob, which is exactly the distinction the store code observes.
* Timestamps (`chrono::Utc::now().to_rfc3339()`) and fresh UUIDs
  (`Uuid::new_v4()`) are external inputs; they are passed explicitly
  (`now : String`, `uuid : Nat → String`).
-/

/-- Model of `ir.rs`: the canonical scope of a rule. -/
inductive Scope
  | user
  | project
  | path
deriving DecidableEq, Repr

/-- Model of `ir.rs`: the activation mode of a rule. -/
inductive Activation
  | always
  | glob
  | onDemand
  | aiDecides
deriving DecidableEq, Repr

/-- Model of `ir.rs`: a single rule in the polyrc intermediate representation.
Defaults mirror the Rust `Default` derivation (`Scope::Project`,
`Activation::Always`, empty `id`, `store_version = "1"`). -/
structure Rule where
  scope : Scope := .project
  activation : Activation := .always
  globs : Option (List String) := none
  name : Option String := none
  description : Option String := none
  content : String := ""
  id : String := ""
  project : Option String := none
  source_format : Option String := none
  created_at : Option String := none
  updated_at : Option String := none
  store_version : String := "1"
deriving DecidableEq, Repr

/-- Model of `error.rs`: the error taxonomy `PolyrcError` (paths flattened to strings;
the `source` payloads of IO/parse errors are not modelled). -/
inductive PolyrcError
  | io (path : String)
  | yamlParse (path : String)
  | unknownFormat (s : String)
  | writeFailure (path reason : String)
  | storeNotFound
  | gitError (msg : String)
deriving DecidableEq, Repr

/-- The `#[error(...)]` display string of each `PolyrcError` variant. -/
def PolyrcError.message : PolyrcError → String
  | .io p => "IO error reading " ++ p
  | .yamlParse p => "YAML parse error in " ++ p
  | .unknownFormat s =>
      "Unknown format: \x27" ++ s ++ "\x27. Use `polyrc supported-formats` to see valid formats."
  | .writeFailure p r => "Cannot write to " ++ p ++ ": " ++ r
  | .storeNotFound => "Store not found. Run `polyrc init` first."
  | .gitError m => "Git error: " ++ m

/-! ## String utilities shared by the embedding -/

/-- Rust `str::trim_end` (trailing whitespace removed). -/
def trimEnd (s : String) : String :=
  String.mk ((s.data.reverse.dropWhile Char.isWhitespace).reverse)

/-- Rust `str::trim` (leading and trailing whitespace removed). -/
def trimBoth (s : String) : String :=
  String.mk (((s.data.dropWhile Char.isWhitespace).reverse.dropWhile Char.isWhitespace).reverse)

/-- Byte-lexicographic strict order on strings, as Rust's `Ord for str`
(UTF-8 byte order coincides with codepoint order). -/
def charListLt : List Char → List Char → Bool
  | [], [] => false
  | [], _ :: _ => true
  | _ :: _, [] => false
  | a :: as, b :: bs =>
      if a.toNat < b.toNat then true
      else if b.toNat < a.toNat then false
      else charListLt as bs

def strLt (a b : String) : Bool := charListLt a.data b.data

def strLe (a b : String) : Bool := !(strLt b a)

/-- Rust `Path::extension()`: the portion of a file name after the final
`.`; `none` when there is no dot after the first character. -/
def fileExtension (name : String) : Option String :=
  match name.data with
  | [] => none
  | _ :: rest =>
      if rest.contains '.' then
        some (String.mk ((rest.reverse.takeWhile (· ≠ '.')).reverse))
      else none

/-- Rust `Path::file_stem()` followed by the code's `.unwrap_or("rule")`:
the portion of a file name before the final `.`, or the whole name when
there is no dot after the first character. -/
def fileStem (name : String) : String :=
  match name.data with
  | [] => "rule"
  | c :: rest =>
      if rest.contains '.' then
        String.mk (c :: ((rest.reverse.dropWhile (· ≠ '.')).tail.reverse))
      else name

/-! ## `ir.rs`: filename stems -/

/-- Model of `ir.rs` `sanitize_filename`: keep alphanumeric, `-`, `_`; map space to
`-`; map everything else to `_`; lowercase the result. -/
def sanitize_filename (name : String) : String :=
  String.mk ((name.data.map fun c =>
    if c.isAlphanum || c == '-' || c == '_' then c
    else if c == ' ' then '-'
    else '_').map Char.toLower)

/-- The UTF-8 encoding of one character, as a list of byte values. -/
def charUtf8 (c : Char) : List Nat :=
  let n := c.toNat
  if n < 0x80 then [n]
  else if n < 0x800 then [0xC0 + n / 64, 0x80 + n % 64]
  else if n < 0x10000 then [0xE0 + n / 4096, 0x80 + n / 64 % 64, 0x80 + n % 64]
  else [0xF0 + n / 262144, 0x80 + n / 4096 % 64, 0x80 + n / 64 % 64, 0x80 + n % 64]

/-- The UTF-8 bytes of a string (`String::as_bytes` in Rust). -/
def utf8Bytes (s : String) : List Nat :=
  s.data.foldr (fun c acc => charUtf8 c ++ acc) []

/-- Model of `ir.rs` `fnv1a`: the hash actually computed by the code. Despite its
name it is *not* FNV-1a: each byte is combined as
`acc.wrapping_mul(16777619).wrapping_add(b)` (multiply-then-add), where
FNV-1a would xor the byte first and then multiply. -/
def fnv1a (data : List Nat) : Nat :=
  data.foldl (fun acc b => (acc * 16777619 + b) % 4294967296) 2166136261

/-- True FNV-1a over 32 bits, modelled from the spec's words
(`rule_<8-hex-fnv1a-of-content>`): per byte, xor then multiply by the FNV
prime. Used only to compare the code's hash against the spec's claim. -/
def fnv1aSpec (data : List Nat) : Nat :=
  data.foldl (fun acc b => ((acc ^^^ b) * 16777619) % 4294967296) 2166136261

/-- Rust `format!("{:08x}", n)` for `n < 2^32`: lowercase hex, zero-padded
to eight digits. -/
def toHex8 (n : Nat) : String :=
  let ds := Nat.toDigits 16 n
  String.mk (List.replicate (8 - ds.length) '0' ++ ds)

/-- Model of `ir.rs` `Rule::filename_stem`. -/
def Rule.filename_stem (r : Rule) : String :=
  match r.name with
  | some n => sanitize_filename n
  | none => "rule_" ++ toHex8 (fnv1a (utf8Bytes r.content))

/-! ## `store/merge.rs`: the merge engine -/

structure MergeResult where
  merged : List Rule
  warnings : List String
deriving DecidableEq, Repr

/-- The last-write-wins decision of `merge_rules`: `true` iff the incoming
rule replaces the local one (`match (loc.updated_at, inc.updated_at)`). -/
def useIncoming (loc inc : Rule) : Bool :=
  match loc.updated_at, inc.updated_at with
  | some lt, some it => strLt lt it
  | none, some _ => true
  | _, _ => false

/-- The warning emitted when the remote side wins a conflict. -/
def remoteWarning (name : String) : String :=
  "conflict on rule \x27" ++ name ++ "\x27: remote version is newer, keeping remote"

/-- The warning emitted when the local side wins a conflict. -/
def localWarning (name : String) : String :=
  "conflict on rule \x27" ++ name ++ "\x27: local version is newer or equal, keeping local"

/-- Rust `Iterator::position`: the index of the first element satisfying
the predicate. -/
def position (p : α → Bool) : List α → Option Nat
  | [] => none
  | a :: l => if p a then some 0 else (position p l).map (· + 1)

/-- One iteration of the `for inc in incoming` loop of `merge_rules`:
returns the updated local list and the warning emitted, if any. -/
def mergeOne (loc : List Rule) (inc : Rule) : List Rule × Option String :=
  if inc.id = "" then (loc ++ [inc], none)
  else
    match position (fun r => r.id == inc.id) loc with
    | none => (loc ++ [inc], none)
    | some pos =>
        match loc[pos]? with
        | none => (loc, none)
        | some l =>
            if l.content = inc.content ∧ l.scope = inc.scope ∧ l.activation = inc.activation then
              (loc, none)
            else if useIncoming l inc then
              (loc.set pos inc, some (remoteWarning (inc.name.getD inc.id)))
            else
              (loc, some (localWarning (l.name.getD l.id)))

/-- Model of `store/merge.rs` `merge_rules`. -/
def merge_rules (loc : List Rule) (incoming : List Rule) : MergeResult :=
  let st := incoming.foldl
    (fun (st : List Rule × List String) inc =>
      ((mergeOne st.1 inc).1, st.2 ++ (mergeOne st.1 inc).2.toList))
    (loc, [])
  ⟨st.1, st.2⟩

/-- The spec's merge example: the local side of the conflict. -/
def mergeLocalEx : Rule :=
  { id := "1", name := some "a", content := "x",
    updated_at := some "2026-01-01T00:00:00+00:00" }

/-- The spec's merge example: the incoming side, strictly newer. -/
def mergeIncomingEx : Rule :=
  { id := "1", name := some "a", content := "y",
    updated_at := some "2026-02-01T00:00:00+00:00" }

/-- A rule unknown to the local side (fresh id). -/
def mergeNewEx : Rule :=
  { id := "2", name := some "b", content := "z",
    updated_at := some "2026-01-15T00:00:00+00:00" }

/-! ## `formats/mod.rs`: the codec registry -/

/-- The closed set of supported formats. -/
inductive Format
  | cursor
  | windsurf
  | copilot
  | claude
  | gemini
  | antigravity
deriving DecidableEq, Repr

/-- Rust `str::to_lowercase` (ASCII model, per character). -/
def strToLower (s : String) : String := String.mk (s.data.map Char.toLower)

/-- The `match` of `Format::from_str` on the already-lowercased name. -/
def Format.resolve (t : String) : Except PolyrcError Format :=
  if t = "cursor" then .ok .cursor
  else if t = "windsurf" then .ok .windsurf
  else if t = "copilot" ∨ t = "github-copilot" ∨ t = "ghcopilot" then .ok .copilot
  else if t = "claude" ∨ t = "claude-code" then .ok .claude
  else if t = "gemini" ∨ t = "gemini-cli" then .ok .gemini
  else if t = "antigravity" ∨ t = "google-antigravity" then .ok .antigravity
  else .error (.unknownFormat t)

/-- Model of `formats/mod.rs` `Format::from_str`: lowercase, then match names and
documented aliases. -/
def Format.from_str (s : String) : Except PolyrcError Format :=
  Format.resolve (strToLower s)

/-- Every name and alias `Format::from_str` recognizes. -/
def formatNames : List String :=
  ["cursor", "windsurf", "copilot", "github-copilot", "ghcopilot",
   "claude", "claude-code", "gemini", "gemini-cli", "antigravity", "google-antigravity"]

/-- Whether `needle` occurs as a contiguous substring of `hay`. -/
def listIsInfix (n h : List Char) : Bool :=
  (List.range (h.length + 1)).any (fun i => n.isPrefixOf (h.drop i))

def strContains (hay needle : String) : Bool := listIsInfix needle.data hay.data

instance {ε α : Type} [DecidableEq ε] [DecidableEq α] : DecidableEq (Except ε α) := fun
  | .ok a, .ok b =>
      if h : a = b then .isTrue (by rw [h])
      else .isFalse (fun he => h (Except.ok.inj he))
  | .ok _, .error _ => .isFalse (fun he => Except.noConfusion he)
  | .error _, .ok _ => .isFalse (fun he => Except.noConfusion he)
  | .error e, .error f =>
      if h : e = f then .isTrue (by rw [h])
      else .isFalse (fun he => h (Except.error.inj he))

/-! ## `formats/cursor.rs`: frontmatter and activation inference -/

/-- Cursor's `globs` field can be a single string or a YAML sequence. -/
inductive StringOrVec
  | single (s : String)
  | multiple (v : List String)
deriving DecidableEq, Repr

/-- Rust `str::split(sep)` on characters: splits into (possibly empty)
pieces; the empty string yields one empty piece. -/
def splitOnChar (sep : Char) : List Char → List (List Char)
  | [] => [[]]
  | c :: rest =>
      match splitOnChar sep rest with
      | [] => if c = sep then [[], []] else [[c]]
      | h :: t => if c = sep then [] :: h :: t else (c :: h) :: t

def strSplitComma (s : String) : List String := (splitOnChar ',' s.data).map String.mk

/-- Model of `formats/cursor.rs` `StringOrVec::into_vec`: a single string is split
on commas, trimmed, and empty pieces dropped; a YAML list is returned
as-is. -/
def StringOrVec.into_vec : StringOrVec → List String
  | .single s => (((strSplitComma s).map trimBoth).filter (fun p => p ≠ ""))
  | .multiple v => v

/-- Modelled from the spec: normalize `globs` "to a list, dropping
empties" in *both* shapes (single string and YAML list). Used only to
compare against the code's `into_vec`. -/
def into_vecSpec : StringOrVec → List String
  | .single s => (((strSplitComma s).map trimBoth).filter (fun p => p ≠ ""))
  | .multiple v => v.filter (fun p => p ≠ "")

/-- The deserialized Cursor frontmatter. -/
structure CursorFrontmatter where
  description : Option String := none
  globs : Option StringOrVec := none
  always_apply : Option Bool := none
deriving DecidableEq, Repr

/-- Model of `CursorParser::parse`: `fm.globs.map(into_vec).filter(|v| !v.is_empty())`. -/
def cursorNormGlobs (fm : CursorFrontmatter) : Option (List String) :=
  Option.filter (fun v => !v.isEmpty) (fm.globs.map StringOrVec.into_vec)

/-- Model of `CursorParser::parse`: the activation precedence. -/
def cursorActivation (fm : CursorFrontmatter) : Activation :=
  if fm.always_apply = some true then .always
  else if (cursorNormGlobs fm).isSome then .glob
  else if fm.description.isSome then .aiDecides
  else .onDemand

/-- The same precedence but with the spec's globs normalization
(empties dropped in both shapes). -/
def cursorActivationSpec (fm : CursorFrontmatter) : Activation :=
  if fm.always_apply = some true then .always
  else if (Option.filter (fun v => !v.isEmpty) (fm.globs.map into_vecSpec)).isSome then .glob
  else if fm.description.isSome then .aiDecides
  else .onDemand

/-! ## `store/mod.rs`: the store -/

/-- A record file's content as the store observes it: either it
deserializes to a `Rule` or it is malformed (YAML codec is an external
library; the store only sees success or failure of deserialization). -/
inductive FileData
  | record (r : Rule)
  | malformed
deriving DecidableEq, Repr

/-- One directory entry (filename, content) directly under a namespace
directory. -/
structure FileEntry where
  name : String
  data : FileData
deriving DecidableEq, Repr

/-- Model of `WalkDir::sort_by_file_name()`: entries in byte-lexicographic filename
order. -/
def sortFiles (files : List FileEntry) : List FileEntry :=
  List.insertionSort (fun a b => strLe a.name b.name = true) files

/-- The `.yml` extension check of the store loops
(`p.extension() == Some("yml")`). -/
def isYml (f : FileEntry) : Bool := fileExtension f.name == some "yml"

/-- The rule stored in a well-formed entry. -/
def recOf (f : FileEntry) : Option Rule :=
  match f.data with
  | .record r => some r
  | .malformed => none

/-- The loop body of `Store::load_rules` over already-sorted entries:
skip non-`.yml`, abort with a parse error carrying the file's path on the
first malformed record. -/
def loadRulesSorted : List FileEntry → Except PolyrcError (List Rule)
  | [] => .ok []
  | f :: fs =>
      if isYml f then
        match f.data with
        | .record r => (loadRulesSorted fs).map (fun rs => r :: rs)
        | .malformed => .error (.yamlParse f.name)
      else loadRulesSorted fs

/-- Model of `Store::load_rules` on one namespace directory. -/
def load_rules (files : List FileEntry) : Except PolyrcError (List Rule) :=
  loadRulesSorted (sortFiles files)

/-- Model of `self.load_rules(project).unwrap_or_default()` in `save_rules`. -/
def existingOf (files : List FileEntry) : List Rule :=
  match load_rules files with
  | .ok rs => rs
  | .error _ => []

/-- Model of `fs::write`: create or overwrite the file called `name`. -/
def writeFile (files : List FileEntry) (name : String) (data : FileData) : List FileEntry :=
  files.filter (fun f => f.name != name) ++ [⟨name, data⟩]

/-- The per-rule metadata update inside `Store::save_rules`. `freshId` is
the `Uuid::new_v4()` candidate for this iteration; the boolean reports
whether it was consumed. -/
def saveOne (existing : List Rule) (pk sf now freshId : String) (rule : Rule) :
    Rule × Bool :=
  let base := { rule with project := some pk,
                          source_format := some sf,
                          store_version := "1" }
  match existing.find? (fun e => !(e.id == "") && e.name == rule.name) with
  | some ex =>
      ({ base with id := ex.id, created_at := ex.created_at, updated_at := some now }, false)
  | none =>
      if rule.id = "" then
        ({ base with id := freshId, created_at := some now, updated_at := some now }, true)
      else
        ({ base with created_at := some now, updated_at := some now }, false)

/-- The write loop of `Store::save_rules`: `k` counts the UUIDs consumed
so far, `dir` is the directory contents accumulated so far. -/
def saveLoop (existing : List Rule) (pk sf now : String) (uuid : Nat → String) :
    List Rule → Nat → List FileEntry → List FileEntry × List Rule
  | [], _, dir => (dir, [])
  | r :: rs, k, dir =>
      let step := saveOne existing pk sf now (uuid k) r
      let dir' := writeFile dir (step.1.filename_stem ++ ".yml") (.record step.1)
      let rest := saveLoop existing pk sf now uuid rs (if step.2 then k + 1 else k) dir'
      (rest.1, step.1 :: rest.2)

structure SaveResult where
  dir : List FileEntry
  stored : List Rule
deriving DecidableEq, Repr

/-- Model of `Store::save_rules` on one namespace directory: load the existing
rules (defaulting to the empty list when loading fails), delete every
`.yml` record file, then write the incoming set with identity continuity
by name. -/
def save_rules (files : List FileEntry) (pk : String) (rules : List Rule)
    (sf now : String) (uuid : Nat → String) : SaveResult :=
  let cleaned := files.filter (fun f => !(isYml f))
  let res := saveLoop (existingOf files) pk sf now uuid rules 0 cleaned
  ⟨res.1, res.2⟩

/-- What `save_rules` guarantees for the stored rule `s` produced from the
incoming rule `r`: core fields are taken from `r`, `updated_at` is the
call's timestamp, and identity is carried forward from a name-matching
stored rule when one exists. -/
def storedMatches (existing : List Rule) (pk sf now : String) (uuid : Nat → String)
    (r s : Rule) : Prop :=
  s.content = r.content ∧ s.scope = r.scope ∧ s.activation = r.activation
  ∧ s.globs = r.globs ∧ s.name = r.name ∧ s.description = r.description
  ∧ s.project = some pk ∧ s.source_format = some sf ∧ s.store_version = "1"
  ∧ s.updated_at = some now
  ∧ (match existing.find? (fun e => !(e.id == "") && e.name == r.name) with
     | some ex => s.id = ex.id ∧ s.created_at = ex.created_at
     | none => s.created_at = some now
         ∧ (r.id = "" → ∃ k, s.id = uuid k)
         ∧ (r.id ≠ "" → s.id = r.id))

/-- A namespace directory with one good and one malformed record; the
malformed one comes first in sorted filename order. -/
def mixedDir : List FileEntry :=
  [⟨"b.yml", FileData.record {}⟩, ⟨"a.yml", FileData.malformed⟩]

/-- An incoming rule that already carries a (store) id. -/
def pushKeepId : Rule := { name := some "a", content := "x", id := "old-id" }

/-- A rule already stored in the `demo` namespace under id `R1`. -/
def storedA : Rule :=
  { name := some "a", content := "x", id := "R1", project := some "demo",
    source_format := some "cursor", created_at := some "T0", updated_at := some "T0" }

/-- The namespace directory holding `storedA`. -/
def dirA : List FileEntry := [⟨"a.yml", FileData.record storedA⟩]

/-- The same rule pushed again with changed content. -/
def pushA : Rule := { name := some "a", content := "y" }

/-- Two rules whose names sanitize to the same filename stem. -/
def ruleLowerA : Rule := { name := some "a", content := "1" }

/-- Same stem as `ruleLowerA` (`"A"` lowercases to `"a"`). -/
def ruleUpperA : Rule := { name := some "A", content := "2" }

/-- The first push of the replace-set scenario: rule `a` (content `x`). -/
def pushAx : Rule := { name := some "a", content := "x" }

/-- The first push of the replace-set scenario: rule `b`. -/
def pushB : Rule := { name := some "b", content := "bb" }

/-- A deterministic UUID supply for the scenario. -/
def uuidSeq (k : Nat) : String := if k = 0 then "IDA" else "IDB"

/-- The `demo` namespace directory after pushing rules `a` and `b`. -/
def demoDir1 : List FileEntry :=
  (save_rules [] "demo" [pushAx, pushB] "cursor" "T0" uuidSeq).dir

/-! ## The filesystem model and the plain-markdown codecs -/

/-- The filesystem seen by parsers and writers: a list of
(path segments relative to the root, file content). A directory exists
exactly when some file lives under it (the codecs treat a missing and an
empty directory identically). -/
abbrev FS := List (List String × String)

/-- Model of `Path::exists` + `fs::read_to_string` for one file. -/
def FS.read (fs : FS) (p : List String) : Option String :=
  (fs.find? (fun e => e.1 == p)).map (·.2)

/-- Model of `fs::write`: create or overwrite. -/
def FS.write (fs : FS) (p : List String) (content : String) : FS :=
  fs.filter (fun e => e.1 != p) ++ [(p, content)]

/-- The files directly inside directory `d`
(`WalkDir min_depth(1) max_depth(1) sort_by_file_name`): (name, content)
pairs in byte-lexicographic name order. -/
def FS.filesIn (fs : FS) (d : List String) : List (String × String) :=
  List.insertionSort (fun a b => strLe a.1 b.1 = true)
    (fs.filterMap (fun e =>
      if e.1.length = d.length + 1 ∧ d.isPrefixOf e.1 then
        (e.1.getLast?).map (fun nm => (nm, e.2))
      else none))

/-- The names of the subdirectories directly inside `d`, sorted. -/
def FS.subdirsIn (fs : FS) (d : List String) : List String :=
  List.insertionSort (fun a b => strLe a b = true)
    ((fs.filterMap (fun e =>
      if d.length + 1 < e.1.length ∧ d.isPrefixOf e.1 then e.1[d.length]? else none)).dedup)

/-- Rust `str::strip_prefix`. -/
def stripPrefixStr (s pre : String) : Option String :=
  if pre.data.isPrefixOf s.data then some (String.mk (s.data.drop pre.data.length)) else none

/-- Rust `str::strip_suffix`. -/
def stripSuffixStr (s suf : String) : Option String :=
  if suf.data.reverse.isPrefixOf s.data.reverse then
    some (String.mk (s.data.take (s.data.length - suf.data.length)))
  else none

/-- Model of `Vec::join(sep)`. -/
def joinWith (sep : String) : List String → String
  | [] => ""
  | [x] => x
  | x :: xs => x ++ sep ++ joinWith sep xs

/-- Model of `gemini.rs` `join_rules`: one rule is written verbatim plus a newline;
several are concatenated under `## <name>` headers. -/
def join_rules (rules : List Rule) : String :=
  match rules with
  | [r] => r.content ++ "\n"
  | _ =>
      joinWith "\n" (rules.map (fun r =>
        "## " ++ (r.name.getD "Rule") ++ "\n\n" ++ trimEnd r.content ++ "\n"))

/-! ### `formats/claude.rs` -/

/-- Model of `claude.rs` `strip_json_fence`. -/
def strip_json_fence (s : String) : String :=
  let t := trimBoth s
  match (stripPrefixStr t "```json\n").orElse (fun _ => stripPrefixStr t "```json\r\n") with
  | some inner =>
      match (stripSuffixStr inner "\n```").orElse (fun _ => stripSuffixStr inner "\r\n```") with
      | some body => body
      | none => t
  | none => t

/-- Model of `claude.rs` `parse_md_dir`: the non-empty `*.md` files of one
directory, as rules with the given scope and activation. -/
def parse_md_dir (fs : FS) (d : List String) (scope : Scope) (activation : Activation) :
    List Rule :=
  (FS.filesIn fs d).filterMap (fun e =>
    if fileExtension e.1 = some "md" then
      if trimBoth e.2 = "" then none
      else some { scope := scope, activation := activation,
                  name := some (fileStem e.1), content := trimEnd e.2 }
    else none)

/-- Model of `claude.rs` `parse_skill_dir`: `skills/*/SKILL.md`, the subdirectory
name being the skill name. -/
def parse_skill_dir (fs : FS) (d : List String) (scope : Scope) : List Rule :=
  (FS.subdirsIn fs d).filterMap (fun sub =>
    match FS.read fs (d ++ [sub, "SKILL.md"]) with
    | none => none
    | some content =>
        if trimBoth content = "" then none
        else some { scope := scope, activation := .aiDecides,
                    name := some sub, content := trimEnd content })

/-- Model of `ClaudeParser::parse`. The Rust code decides the user layout by the
root directory being named `.claude`; that OS-path test is modelled by the
`isUser` flag, everything below it follows the source. -/
def claudeParse (isUser : Bool) (fs : FS) : List Rule :=
  let scope : Scope := if isUser then .user else .project
  let pre : List String := if isUser then [] else [".claude"]
  let settingsRule :=
    match FS.read fs (pre ++ ["settings.json"]) with
    | none => []
    | some json =>
        if trimBoth json = "" then []
        else [{ scope := scope, activation := .always, name := some "settings",
                content := "```json\n" ++ trimEnd json ++ "\n```" }]
  let mainRule :=
    match FS.read fs ["CLAUDE.md"] with
    | none => []
    | some content =>
        if trimBoth content = "" then []
        else [{ scope := scope, activation := .always, name := some "claude",
                content := trimEnd content }]
  settingsRule ++ mainRule
    ++ parse_md_dir fs (pre ++ ["rules"]) scope .always
    ++ parse_md_dir fs (pre ++ ["commands"]) scope .onDemand
    ++ parse_skill_dir fs (pre ++ ["skills"]) scope
    ++ parse_md_dir fs (pre ++ ["agents"]) scope .aiDecides

/-- Model of `ClaudeWriter::write`: the settings rule back to
`.claude/settings.json` (fence stripped); one markdown rule to
`CLAUDE.md`; several to `.claude/rules/*.md`. -/
def claudeWrite (fs : FS) (rules : List Rule) : FS :=
  if rules.isEmpty then fs
  else
    let settingsRules := rules.filter (fun r => r.name == some "settings")
    let mdRules := rules.filter (fun r => !(r.name == some "settings"))
    let fs1 := settingsRules.foldl (fun acc r =>
      FS.write acc [".claude", "settings.json"]
        (trimEnd (strip_json_fence r.content) ++ "\n")) fs
    match mdRules with
    | [] => fs1
    | [r] => FS.write fs1 ["CLAUDE.md"] (trimEnd r.content ++ "\n")
    | _ :: _ :: _ =>
        mdRules.foldl (fun acc r =>
          FS.write acc [".claude", "rules", r.filename_stem ++ ".md"]
            (trimEnd r.content ++ "\n")) fs1

/-! ### `formats/gemini.rs` -/

/-- Model of `GeminiParser::parse`: the single `GEMINI.md` file. -/
def geminiParse (fs : FS) : List Rule :=
  match FS.read fs ["GEMINI.md"] with
  | none => []
  | some content =>
      if trimBoth content = "" then []
      else [{ scope := .project, activation := .always, name := some "gemini",
              content := trimEnd content }]

/-- Model of `GeminiWriter::write`. -/
def geminiWrite (fs : FS) (rules : List Rule) : FS :=
  if rules.isEmpty then fs
  else FS.write fs ["GEMINI.md"] (join_rules rules)

/-! ### `formats/windsurf.rs`: the writer and its soft limits -/

/-- The result of a write call: the filesystem and the warnings printed
to stderr. -/
structure WriteOutcome where
  fs : FS
  warnings : List String
deriving DecidableEq, Repr

/-- The per-file soft-limit warning (`eprintln!` in the code). -/
def windsurfFileWarning (name : String) (cc : Nat) : String :=
  "warning: rule \x27" ++ name ++ "\x27 is " ++ toString cc
    ++ " chars, exceeds Windsurf per-file limit of 6000"

/-- The total soft-limit warning. -/
def windsurfTotalWarning (total : Nat) : String :=
  "warning: total rules content is " ++ toString total
    ++ " chars, exceeds Windsurf total limit of 12000"

/-- The length in characters of the file the Windsurf writer produces for
a rule (`rule.content.trim_end() + "\n"`, counted with `chars().count()`). -/
def wsFileLen (r : Rule) : Nat := (trimEnd r.content ++ "\n").length

/-- The `for rule in rules` loop of `WindsurfWriter::write` (project
layout): write each rule's file, warning when a file exceeds 6,000
characters, and accumulate the total character count. -/
def windsurfWriteLoop : List Rule → FS → Nat → List String → FS × Nat × List String
  | [], fs, total, ws => (fs, total, ws)
  | r :: rs, fs, total, ws =>
      let content := trimEnd r.content ++ "\n"
      let cc := content.length
      let ws' := if 6000 < cc then ws ++ [windsurfFileWarning (r.name.getD "rule") cc] else ws
      let fs' := FS.write fs [".windsurf", "rules", r.filename_stem ++ ".md"] content
      windsurfWriteLoop rs fs' (total + cc) ws'

/-- Model of `WindsurfWriter::write`: user layout (any user-scope rule present)
joins everything into `global_rules.md` with no size checks; project
layout writes one file per rule with advisory 6,000/12,000-character
warnings. IO is modelled as infallible, so the only interest of the
`Except` is that no code path produces an error. -/
def windsurfWrite (fs : FS) (rules : List Rule) : Except PolyrcError WriteOutcome :=
  if rules.any (fun r => r.scope == Scope.user) then
    .ok ⟨FS.write fs ["global_rules.md"] (join_rules rules), []⟩
  else
    let res := windsurfWriteLoop rules fs 0 []
    .ok ⟨res.1, if 12000 < res.2.1 then res.2.2 ++ [windsurfTotalWarning res.2.1] else res.2.2⟩

/-- A rule whose raw content is 6,001 characters, but whose written file
(trailing whitespace trimmed, newline added) is exactly 6,000. -/
def wsRule : Rule :=
  { name := some "big", content := String.mk (List.replicate 5999 'a' ++ [' ', ' ']) }

/-- A small project rule for the Windsurf witness. -/
def wsSmall : Rule := { name := some "s", content := "hi" }

/-- A directory holding one Claude slash command. -/
def fsCommands : FS := [([".claude", "commands", "deploy.md"], "x")]

/-- The rule the Claude parser produces for that command: on-demand,
named after the file. -/
def ruleDeploy : Rule := { activation := .onDemand, name := some "deploy", content := "x" }

/-- What the round trip turns `ruleDeploy` into: an always-on rule named
`claude`. -/
def ruleClaudeNorm : Rule := { name := some "claude", content := "x" }

/-! ### Facts about `position` and the merge loop -/

theorem position_lt_length (p : α → Bool) :
    ∀ (l : List α) (i : Nat), position p l = some i → i < l.length := by
  intro l
  induction l with
  | nil => intro i h; simp [position] at h
  | cons a t ih =>
      intro i h
      by_cases hp : p a
      · simp [position, hp] at h
        subst h
        simp
      · simp [position, hp] at h
        obtain ⟨j, hj, rfl⟩ := h
        have := ih j hj
        simp
        omega

theorem position_getElem (p : α → Bool) :
    ∀ (l : List α) (i : Nat), position p l = some i →
      ∀ x, l[i]? = some x → p x = true := by
  intro l
  induction l with
  | nil => intro i h; simp [position] at h
  | cons a t ih =>
      intro i h x hx
      by_cases hp : p a
      · simp [position, hp] at h
        subst h
        simp at hx
        subst hx
        exact hp
      · simp [position, hp] at h
        obtain ⟨j, hj, rfl⟩ := h
        simp at hx
        exact ih j hj x hx

theorem mergeOne_fst_length (loc : List Rule) (inc : Rule) :
    loc.length ≤ (mergeOne loc inc).1.length := by
  unfold mergeOne
  split
  · simp
  · split
    · simp
    · split
      · simp
      · split
        · simp
        · split <;> simp

theorem mergeOne_preserves (loc : List Rule) (inc : Rule) (i : Nat)
    (hi : i < loc.length)
    (hne : ∀ l, loc[i]? = some l → inc.id ≠ l.id) :
    (mergeOne loc inc).1[i]? = loc[i]? := by
  by_cases hid : inc.id = ""
  · simp [mergeOne, hid, List.getElem?_append, hi]
  · cases hfind : position (fun r => r.id == inc.id) loc with
    | none => simp [mergeOne, hid, hfind, List.getElem?_append, hi]
    | some pos =>
        cases hl : loc[pos]? with
        | none => simp [mergeOne, hid, hfind, hl]
        | some l =>
            by_cases heq : l.content = inc.content ∧ l.scope = inc.scope
                ∧ l.activation = inc.activation
            · simp [mergeOne, hid, hfind, hl, heq]
            · by_cases huse : useIncoming l inc
              · have hpl : (l.id == inc.id) = true :=
                  position_getElem _ loc pos hfind l hl
                have hpl' : l.id = inc.id := by simpa using hpl
                have hpos_ne : pos ≠ i := by
                  intro he
                  subst he
                  exact hne l hl hpl'.symm
                simp [mergeOne, hid, hfind, hl, heq, huse, List.getElem?_set_ne hpos_ne]
              · simp [mergeOne, hid, hfind, hl, heq, huse]

theorem merge_fold_fst :
    ∀ (incoming : List Rule) (loc : List Rule) (ws : List String),
      (incoming.foldl
        (fun (st : List Rule × List String) inc =>
          ((mergeOne st.1 inc).1, st.2 ++ (mergeOne st.1 inc).2.toList))
        (loc, ws)).1
      = incoming.foldl (fun l inc => (mergeOne l inc).1) loc := by
  intro incoming
  induction incoming with
  | nil => intro loc ws; rfl
  | cons inc rest ih => intro loc ws; exact ih _ _

theorem merge_rules_merged (loc : List Rule) (incoming : List Rule) :
    (merge_rules loc incoming).merged
      = incoming.foldl (fun l inc => (mergeOne l inc).1) loc := by
  simp [merge_rules, merge_fold_fst]

theorem merge_rules_singleton (loc : List Rule) (inc : Rule) :
    merge_rules loc [inc] = ⟨(mergeOne loc inc).1, (mergeOne loc inc).2.toList⟩ := by
  simp [merge_rules]

theorem mergeFold_preserves :
    ∀ (incoming : List Rule) (loc : List Rule) (i : Nat), i < loc.length →
      (∀ inc ∈ incoming, ∀ l, loc[i]? = some l → inc.id ≠ l.id) →
      (incoming.foldl (fun l inc => (mergeOne l inc).1) loc)[i]? = loc[i]? := by
  intro incoming
  induction incoming with
  | nil => intro loc i hi _; rfl
  | cons inc rest ih =>
      intro loc i hi h
      have hstep : (mergeOne loc inc).1[i]? = loc[i]? :=
        mergeOne_preserves loc inc i hi (h inc (List.mem_cons_self _ _))
      have hlen : i < (mergeOne loc inc).1.length :=
        Nat.lt_of_lt_of_le hi (mergeOne_fst_length loc inc)
      have hrest : ∀ inc' ∈ rest, ∀ l, (mergeOne loc inc).1[i]? = some l → inc'.id ≠ l.id := by
        intro inc' hmem l hl
        exact h inc' (List.mem_cons_of_mem _ hmem) l (hstep ▸ hl)
      calc (List.foldl (fun l inc => (mergeOne l inc).1) (mergeOne loc inc).1 rest)[i]?
          = (mergeOne loc inc).1[i]? := ih _ i hlen hrest
        _ = loc[i]? := hstep

theorem useIncoming_iff (l inc : Rule) :
    useIncoming l inc = true ↔
      ((∃ lt it, l.updated_at = some lt ∧ inc.updated_at = some it ∧ strLt lt it = true)
       ∨ (l.updated_at = none ∧ inc.updated_at ≠ none)) := by
  cases hl : l.updated_at <;> cases hi : inc.updated_at <;> simp [useIncoming, hl, hi]

/-! ### Claims about the merge engine -/

/-- Claim C4: in `merge_rules`, whenever an incoming rule and a local rule
share the same non-empty `id` but differ in (content, scope, activation),
the conflict is resolved last-write-wins by `updated_at`: the incoming rule
replaces the local one exactly when its timestamp is strictly later, or
when it has a timestamp and the local rule has none; on ties or when both
timestamps are absent the local rule is kept; and every such resolved
difference produces exactly one warning string naming the rule and which
side won. -/
theorem merge_last_write_wins (loc : List Rule) (inc l : Rule) (pos : Nat)
    (hid : inc.id ≠ "")
    (hfind : position (fun r => r.id == inc.id) loc = some pos)
    (hl : loc[pos]? = some l)
    (hdiff : ¬(l.content = inc.content ∧ l.scope = inc.scope
        ∧ l.activation = inc.activation)) :
    (merge_rules loc [inc]).warnings.length = 1
    ∧ (useIncoming l inc = true ↔
        ((∃ lt it, l.updated_at = some lt ∧ inc.updated_at = some it ∧ strLt lt it = true)
         ∨ (l.updated_at = none ∧ inc.updated_at ≠ none)))
    ∧ (useIncoming l inc = true →
        merge_rules loc [inc] = ⟨loc.set pos inc, [remoteWarning (inc.name.getD inc.id)]⟩)
    ∧ (useIncoming l inc = false →
        merge_rules loc [inc] = ⟨loc, [localWarning (l.name.getD l.id)]⟩) := by
  by_cases huse : useIncoming l inc <;>
    refine ⟨?_, useIncoming_iff l inc, ?_, ?_⟩ <;>
      simp [merge_rules_singleton, mergeOne, hid, hfind, hl, hdiff, huse]

/-- Claim C5: in `merge_rules`, an incoming rule with an empty `id`, or with
an `id` matching no local rule, is appended to the merged output without a
warning; an incoming rule with a non-empty `id` whose same-id local
counterpart has identical (content, scope, activation) is a no-op with
zero warnings; and rules present only in `local` are kept unchanged (at
their position) in the output. -/
theorem merge_append_and_noop (loc incoming : List Rule) (inc : Rule) :
    (inc.id = "" → merge_rules loc [inc] = ⟨loc ++ [inc], []⟩)
    ∧ (position (fun r => r.id == inc.id) loc = none →
        merge_rules loc [inc] = ⟨loc ++ [inc], []⟩)
    ∧ (∀ pos l, inc.id ≠ "" →
        position (fun r => r.id == inc.id) loc = some pos → loc[pos]? = some l →
        l.content = inc.content → l.scope = inc.scope → l.activation = inc.activation →
        merge_rules loc [inc] = ⟨loc, []⟩)
    ∧ (∀ i, i < loc.length →
        (∀ inc' ∈ incoming, ∀ l, loc[i]? = some l → inc'.id ≠ l.id) →
        (merge_rules loc incoming).merged[i]? = loc[i]?) := by
  refine ⟨?_, ?_, ?_, ?_⟩
  · intro hid
    simp [merge_rules_singleton, mergeOne, hid]
  · intro hfind
    by_cases hid : inc.id = ""
    · simp [merge_rules_singleton, mergeOne, hid]
    · simp [merge_rules_singleton, mergeOne, hid, hfind]
  · intro pos l hid hfind hl hc hs ha
    simp [merge_rules_singleton, mergeOne, hid, hfind, hl, hc, hs, ha]
  · intro i hi h
    rw [merge_rules_merged]
    exact mergeFold_preserves incoming loc i hi h

/-- Witness for `merge_last_write_wins`: the spec's own example
(`local = [{id 1, content x, T1}]`, `incoming = [{id 1, content y, T2 > T1}]`)
satisfies every hypothesis, and the theorem yields content `y` and one warning. -/
theorem merge_last_write_wins_witness :
    mergeIncomingEx.id ≠ ""
    ∧ position (fun r => r.id == mergeIncomingEx.id) [mergeLocalEx] = some 0
    ∧ [mergeLocalEx][0]? = some mergeLocalEx
    ∧ ¬(mergeLocalEx.content = mergeIncomingEx.content
        ∧ mergeLocalEx.scope = mergeIncomingEx.scope
        ∧ mergeLocalEx.activation = mergeIncomingEx.activation)
    ∧ ((merge_rules [mergeLocalEx] [mergeIncomingEx]).warnings.length = 1
       ∧ (useIncoming mergeLocalEx mergeIncomingEx = true ↔
           ((∃ lt it, mergeLocalEx.updated_at = some lt
               ∧ mergeIncomingEx.updated_at = some it ∧ strLt lt it = true)
            ∨ (mergeLocalEx.updated_at = none ∧ mergeIncomingEx.updated_at ≠ none)))
       ∧ (useIncoming mergeLocalEx mergeIncomingEx = true →
           merge_rules [mergeLocalEx] [mergeIncomingEx]
             = ⟨[mergeLocalEx].set 0 mergeIncomingEx,
                [remoteWarning (mergeIncomingEx.name.getD mergeIncomingEx.id)]⟩)
       ∧ (useIncoming mergeLocalEx mergeIncomingEx = false →
           merge_rules [mergeLocalEx] [mergeIncomingEx]
             = ⟨[mergeLocalEx], [localWarning (mergeLocalEx.name.getD mergeLocalEx.id)]⟩)) :=
  ⟨by decide, by decide, by decide, by decide,
    merge_last_write_wins [mergeLocalEx] mergeIncomingEx mergeLocalEx 0
      (by decide) (by decide) (by decide) (by decide)⟩

/-- Witness for `merge_append_and_noop`: a remote-only rule is appended
with no warning. -/
theorem merge_append_and_noop_witness :
    merge_rules [mergeLocalEx] [mergeNewEx] = ⟨[mergeLocalEx, mergeNewEx], []⟩ :=
  (merge_append_and_noop [mergeLocalEx] [mergeNewEx] mergeNewEx).2.1 (by decide)

/-! ### Claims about filename stems -/

theorem fnv1aFold_lt (l : List Nat) :
    ∀ acc, acc < 4294967296 →
      l.foldl (fun acc b => (acc * 16777619 + b) % 4294967296) acc < 4294967296 := by
  induction l with
  | nil => intro acc h; exact h
  | cons b t ih =>
      intro acc _
      exact ih _ (Nat.mod_lt _ (by norm_num))

theorem fnv1a_lt (data : List Nat) : fnv1a data < 4294967296 :=
  fnv1aFold_lt data 2166136261 (by norm_num)

/-- Claim C8, counterexample: the no-name fallback stem is *not* built from the
FNV-1a hash of the content bytes. The code's `fnv1a` combines each byte by
multiply-then-add instead of FNV-1a's xor-then-multiply, and already on the
one-byte content `"a"` the two disagree, so the stem differs from
`rule_<8-hex-fnv1a>`. -/
theorem filename_stem_hash_not_fnv1a :
    fnv1a (utf8Bytes "a") ≠ fnv1aSpec (utf8Bytes "a")
    ∧ ({ content := "a" } : Rule).filename_stem
        ≠ "rule_" ++ toHex8 (fnv1aSpec (utf8Bytes "a")) := by
  decide

/-- Claim C8, amended: `filename_stem` is a pure function of `(name, content)`:
rules agreeing on `name` and `content` get the same stem; a present name is
sanitized by `sanitize_filename` (keep alphanumeric, `-`, `_`; space to `-`;
all else to `_`; lowercase); an absent name falls back to `rule_` followed by
the 8-hex-digit rendering of the code's 32-bit multiply-then-add FNV-variant
hash of the content's UTF-8 bytes (not true FNV-1a), which is always below
`2^32`. -/
theorem filename_stem_pure (r₁ r₂ : Rule)
    (hn : r₁.name = r₂.name) (hc : r₁.content = r₂.content) :
    r₁.filename_stem = r₂.filename_stem
    ∧ (∀ n, r₁.name = some n → r₁.filename_stem = sanitize_filename n)
    ∧ (r₁.name = none →
        r₁.filename_stem = "rule_" ++ toHex8 (fnv1a (utf8Bytes r₁.content)))
    ∧ fnv1a (utf8Bytes r₁.content) < 4294967296 := by
  refine ⟨by simp only [Rule.filename_stem, hn, hc], ?_, ?_, fnv1a_lt _⟩
  · intro n hname
    simp [Rule.filename_stem, hname]
  · intro hname
    simp [Rule.filename_stem, hname]

/-- Witness for `filename_stem_pure` at the repo's own test case
(`"My Rule"` sanitizes to `"my-rule"`). -/
theorem filename_stem_pure_witness :
    ({ name := some "My Rule", content := "content" } : Rule).name
      = ({ name := some "My Rule", content := "content" } : Rule).name
    ∧ ({ name := some "My Rule", content := "content" } : Rule).filename_stem
        = ({ name := some "My Rule", content := "content" } : Rule).filename_stem
    ∧ ({ name := some "My Rule", content := "content" } : Rule).filename_stem = "my-rule"
    ∧ (∀ n, ({ name := some "My Rule", content := "content" } : Rule).name = some n →
        ({ name := some "My Rule", content := "content" } : Rule).filename_stem
          = sanitize_filename n) :=
  ⟨rfl,
   (filename_stem_pure _ _ rfl rfl).1,
   by decide,
   (filename_stem_pure { name := some "My Rule", content := "content" }
      { name := some "My Rule", content := "content" } rfl rfl).2.1⟩

theorem listIsInfix_append_left (n pre post : List Char)
    (h : listIsInfix n post = true) : listIsInfix n (pre ++ post) = true := by
  unfold listIsInfix at h ⊢
  rw [List.any_eq_true] at h ⊢
  obtain ⟨i, hi, hp⟩ := h
  refine ⟨pre.length + i, ?_, ?_⟩
  · rw [List.mem_range] at hi ⊢
    simp only [List.length_append]
    omega
  · rw [List.drop_append]
    exact hp

theorem strContains_right (pre post needle : String)
    (h : strContains post needle = true) : strContains (pre ++ post) needle = true := by
  unfold strContains at h ⊢
  rw [String.data_append]
  exact listIsInfix_append_left _ _ _ h

/-- Claim C9, counterexample: the unknown-format error message does not
identify the valid format choices — it names none of the six formats, only
the `polyrc supported-formats` command. -/
theorem unknown_format_message_no_choices :
    Format.from_str "bogus" = .error (.unknownFormat "bogus")
    ∧ strContains (PolyrcError.message (.unknownFormat "bogus")) "cursor" = false
    ∧ strContains (PolyrcError.message (.unknownFormat "bogus")) "windsurf" = false
    ∧ strContains (PolyrcError.message (.unknownFormat "bogus")) "copilot" = false
    ∧ strContains (PolyrcError.message (.unknownFormat "bogus")) "claude" = false
    ∧ strContains (PolyrcError.message (.unknownFormat "bogus")) "gemini" = false
    ∧ strContains (PolyrcError.message (.unknownFormat "bogus")) "antigravity" = false
    ∧ strContains (PolyrcError.message (.unknownFormat "bogus")) "supported-formats" = true := by
  decide

/-- Claim C9, amended: every format-name string whose lowercasing is not
among the recognized names and aliases fails with the distinct
unknown-format error (not an IO or parse error), whose message directs the
user to `polyrc supported-formats` rather than listing the choices; every
recognized name or alias resolves to exactly one `Format` variant. -/
theorem format_resolution (s : String) :
    (strToLower s ∉ formatNames →
      Format.from_str s = .error (.unknownFormat (strToLower s)))
    ∧ (∀ p, PolyrcError.unknownFormat (strToLower s) ≠ .io p
        ∧ PolyrcError.unknownFormat (strToLower s) ≠ .yamlParse p)
    ∧ strContains (PolyrcError.message (.unknownFormat (strToLower s))) "supported-formats"
        = true
    ∧ (strToLower s ∈ formatNames → ∃ f, Format.from_str s = .ok f)
    ∧ (∀ f g, Format.from_str s = .ok f → Format.from_str s = .ok g → f = g) := by
  have hfe : Format.from_str s = Format.resolve (strToLower s) := rfl
  refine ⟨?_, fun p => ⟨by simp, by simp⟩, ?_, ?_, ?_⟩
  · intro h
    simp only [formatNames, List.mem_cons, List.not_mem_nil, or_false, not_or] at h
    obtain ⟨h1, h2, h3, h4, h5, h6, h7, h8, h9, h10, h11⟩ := h
    rw [hfe]
    simp [Format.resolve, h1, h2, h3, h4, h5, h6, h7, h8, h9, h10, h11]
  · exact strContains_right ("Unknown format: \x27" ++ strToLower s)
      "\x27. Use `polyrc supported-formats` to see valid formats." "supported-formats"
      (by decide)
  · intro h
    rw [hfe]
    generalize strToLower s = t at h
    simp only [formatNames, List.mem_cons, List.not_mem_nil, or_false] at h
    rcases h with rfl | rfl | rfl | rfl | rfl | rfl | rfl | rfl | rfl | rfl | rfl
    · exact ⟨.cursor, by decide⟩
    · exact ⟨.windsurf, by decide⟩
    · exact ⟨.copilot, by decide⟩
    · exact ⟨.copilot, by decide⟩
    · exact ⟨.copilot, by decide⟩
    · exact ⟨.claude, by decide⟩
    · exact ⟨.claude, by decide⟩
    · exact ⟨.gemini, by decide⟩
    · exact ⟨.gemini, by decide⟩
    · exact ⟨.antigravity, by decide⟩
    · exact ⟨.antigravity, by decide⟩
  · intro f g hf hg
    exact Except.ok.inj (hf.symm.trans hg)

/-- Witness for `format_resolution`: the alias `Claude-Code` resolves
(case-insensitively), and `bogus` fails with the unknown-format error. -/
theorem format_resolution_witness :
    strToLower "Claude-Code" ∈ formatNames
    ∧ (∃ f, Format.from_str "Claude-Code" = Except.ok f)
    ∧ strToLower "bogus" ∉ formatNames
    ∧ Format.from_str "bogus" = Except.error (PolyrcError.unknownFormat "bogus") :=
  ⟨by decide, (format_resolution "Claude-Code").2.2.2.1 (by decide), by decide,
   (format_resolution "bogus").1 (by decide)⟩

/-- Claim C7, counterexample: the frontmatter `globs` value is *not* always
normalized with empty entries dropped: a YAML list is taken as-is. On
`globs: [""]` the code keeps the empty pattern and infers `Glob`, while the
spec's normalization would drop it and fall through to `OnDemand`. -/
theorem cursor_globs_list_not_normalized :
    StringOrVec.into_vec (.multiple [""]) = [""]
    ∧ cursorActivation { globs := some (.multiple [""]) } = .glob
    ∧ cursorNormGlobs { globs := some (.multiple [""]) } = some [""]
    ∧ into_vecSpec (.multiple [""]) = []
    ∧ cursorActivationSpec { globs := some (.multiple [""]) } = .onDemand := by
  decide

/-- Claim C7, amended: Cursor activation precedence is
`alwaysApply: true` → Always, else non-empty `into_vec` of `globs` → Glob,
else present description → AiDecides, else OnDemand — where a *single*
(possibly comma-separated) `globs` string is split, trimmed and cleared of
empty entries, while a YAML *list* is used as-is (empty entries kept). -/
theorem cursor_activation_precedence (fm : CursorFrontmatter) :
    (fm.always_apply = some true → cursorActivation fm = .always)
    ∧ (fm.always_apply ≠ some true → cursorNormGlobs fm ≠ none →
        cursorActivation fm = .glob)
    ∧ (fm.always_apply ≠ some true → cursorNormGlobs fm = none →
        fm.description ≠ none → cursorActivation fm = .aiDecides)
    ∧ (fm.always_apply ≠ some true → cursorNormGlobs fm = none →
        fm.description = none → cursorActivation fm = .onDemand)
    ∧ (cursorNormGlobs fm = none ↔
        (fm.globs = none ∨ ∃ g, fm.globs = some g ∧ g.into_vec = []))
    ∧ (∀ s p, p ∈ StringOrVec.into_vec (.single s) → p ≠ "")
    ∧ (∀ v, StringOrVec.into_vec (.multiple v) = v) := by
  refine ⟨?_, ?_, ?_, ?_, ?_, ?_, fun v => rfl⟩
  · intro h; simp [cursorActivation, h]
  · intro h hg
    rw [← Option.isSome_iff_ne_none] at hg
    simp [cursorActivation, h, hg]
  · intro h hg hd
    rw [← Option.isSome_iff_ne_none] at hd
    simp [cursorActivation, h, hg, hd]
  · intro h hg hd
    simp [cursorActivation, h, hg, hd]
  · cases hg : fm.globs with
    | none => simp [cursorNormGlobs, hg]
    | some g =>
        by_cases he : g.into_vec.isEmpty
        · have he' : g.into_vec = [] := List.isEmpty_iff.mp he
          simp [cursorNormGlobs, hg, Option.filter, he, he']
        · have he' : g.into_vec ≠ [] := by
            intro hcontra
            exact he (by simp [hcontra])
          simp [cursorNormGlobs, hg, Option.filter, he, he']
  · intro s p hp
    simp only [StringOrVec.into_vec, List.mem_filter] at hp
    simpa using hp.2

/-- Witness for `cursor_activation_precedence`: the spec's scenario 1
frontmatter (`description: "a"`, `globs: "*.ts"`, no `alwaysApply`)
infers `Glob`. -/
theorem cursor_activation_precedence_witness :
    ({ description := some "a", globs := some (.single "*.ts") } : CursorFrontmatter).always_apply
      ≠ some true
    ∧ cursorNormGlobs { description := some "a", globs := some (.single "*.ts") } ≠ none
    ∧ cursorActivation { description := some "a", globs := some (.single "*.ts") } = .glob :=
  ⟨by decide, by decide,
   (cursor_activation_precedence
      { description := some "a", globs := some (.single "*.ts") }).2.1
     (by decide) (by decide)⟩

/-! ### Facts about loading -/

theorem loadRulesSorted_ok :
    ∀ (l : List FileEntry), (∀ f ∈ l, isYml f = true → f.data ≠ .malformed) →
      loadRulesSorted l = .ok ((l.filter isYml).filterMap recOf) := by
  intro l
  induction l with
  | nil => intro _; rfl
  | cons f fs ih =>
      intro h
      have hrest := ih (fun g hg hgy => h g (List.mem_cons_of_mem _ hg) hgy)
      by_cases hy : isYml f
      · cases hd : f.data with
        | record r => simp [loadRulesSorted, hy, hd, hrest, recOf, Except.map]
        | malformed => exact absurd hd (h f (List.mem_cons_self _ _) hy)
      · simp [loadRulesSorted, hy, hrest]

theorem loadRulesSorted_err :
    ∀ (l : List FileEntry) (f : FileEntry), f ∈ l → isYml f = true →
      f.data = .malformed →
      ∃ p, loadRulesSorted l = .error (.yamlParse p)
        ∧ ∃ g ∈ l, g.name = p ∧ isYml g = true ∧ g.data = .malformed := by
  intro l
  induction l with
  | nil => intro f hf _ _; cases hf
  | cons a t ih =>
      intro f hf hy hm
      by_cases hay : isYml a
      · cases had : a.data with
        | malformed =>
            exact ⟨a.name, by simp [loadRulesSorted, hay, had],
              a, List.mem_cons_self _ _, rfl, hay, had⟩
        | record r =>
            have hft : f ∈ t := by
              rcases List.mem_cons.mp hf with rfl | hft
              · rw [had] at hm; cases hm
              · exact hft
            obtain ⟨p, hp, g, hg, hgn, hgy, hgm⟩ := ih f hft hy hm
            exact ⟨p, by simp [loadRulesSorted, hay, had, hp, Except.map],
              g, List.mem_cons_of_mem _ hg, hgn, hgy, hgm⟩
      · have hft : f ∈ t := by
          rcases List.mem_cons.mp hf with rfl | hft
          · exact absurd hy (by simp [hay])
          · exact hft
        obtain ⟨p, hp, g, hg, hgn, hgy, hgm⟩ := ih f hft hy hm
        exact ⟨p, by simp [loadRulesSorted, hay, hp],
          g, List.mem_cons_of_mem _ hg, hgn, hgy, hgm⟩

/-- Claim C6: `Store::load_rules` reads the record files directly under the
namespace directory in sorted filename order; when every record
deserializes it returns exactly their rules (in that order), and when any
record file is malformed the whole call fails with a parse error carrying
the path of a malformed file — no rule list is returned and no malformed
file is silently skipped. -/
theorem load_rules_fail_closed (files : List FileEntry) :
    ((∀ f ∈ files, isYml f = true → f.data ≠ FileData.malformed) →
      load_rules files = .ok (((sortFiles files).filter isYml).filterMap recOf))
    ∧ (∀ f ∈ files, isYml f = true → f.data = FileData.malformed →
        ∃ p, load_rules files = .error (.yamlParse p)
          ∧ ∃ g ∈ files, g.name = p ∧ isYml g = true ∧ g.data = FileData.malformed) := by
  have hperm : (sortFiles files).Perm files := List.perm_insertionSort _ _
  constructor
  · intro h
    exact loadRulesSorted_ok _ (fun f hf => h f (hperm.mem_iff.mp hf))
  · intro f hf hy hm
    obtain ⟨p, hp, g, hg, rest⟩ :=
      loadRulesSorted_err (sortFiles files) f (hperm.mem_iff.mpr hf) hy hm
    exact ⟨p, hp, g, hperm.mem_iff.mp hg, rest⟩

/-- Witness for `load_rules_fail_closed`: a malformed `a.yml` aborts the
whole load with a parse error naming `a.yml`. -/
theorem load_rules_fail_closed_witness :
    (⟨"a.yml", FileData.malformed⟩ : FileEntry) ∈ mixedDir
    ∧ isYml ⟨"a.yml", FileData.malformed⟩ = true
    ∧ (∃ p, load_rules mixedDir = .error (.yamlParse p)
        ∧ ∃ g ∈ mixedDir, g.name = p ∧ isYml g = true ∧ g.data = FileData.malformed)
    ∧ load_rules mixedDir = .error (.yamlParse "a.yml") :=
  ⟨by decide, by decide,
   (load_rules_fail_closed mixedDir).2 ⟨"a.yml", FileData.malformed⟩ (by decide) (by decide) rfl,
   by decide⟩

/-! ### Facts about saving -/

theorem saveOne_matches (existing : List Rule) (pk sf now : String) (uuid : Nat → String)
    (k : Nat) (r : Rule) :
    storedMatches existing pk sf now uuid r (saveOne existing pk sf now (uuid k) r).1 := by
  unfold storedMatches saveOne
  cases hfind : existing.find? (fun e => !(e.id == "") && e.name == r.name) with
  | some ex => simp [hfind]
  | none =>
      by_cases hid : r.id = ""
      · simp [hfind, hid]
      · simp [hfind, hid]

theorem saveLoop_stored_length (existing : List Rule) (pk sf now : String)
    (uuid : Nat → String) :
    ∀ (rules : List Rule) (k : Nat) (dir : List FileEntry),
      (saveLoop existing pk sf now uuid rules k dir).2.length = rules.length := by
  intro rules
  induction rules with
  | nil => intro k dir; rfl
  | cons r rs ih => intro k dir; simp [saveLoop, ih]

theorem saveLoop_stored_matches (existing : List Rule) (pk sf now : String)
    (uuid : Nat → String) :
    ∀ (rules : List Rule) (k : Nat) (dir : List FileEntry) (i : Nat) (r : Rule),
      rules[i]? = some r →
      ∃ s, (saveLoop existing pk sf now uuid rules k dir).2[i]? = some s
        ∧ storedMatches existing pk sf now uuid r s := by
  intro rules
  induction rules with
  | nil => intro k dir i r h; simp at h
  | cons q rs ih =>
      intro k dir i r h
      cases i with
      | zero =>
          simp only [List.getElem?_cons_zero, Option.some.injEq] at h
          subst h
          exact ⟨_, by simp [saveLoop], saveOne_matches existing pk sf now uuid k q⟩
      | succ n =>
          simp only [List.getElem?_cons_succ] at h
          obtain ⟨s, hs, hm⟩ :=
            ih (if (saveOne existing pk sf now (uuid k) q).2 then k + 1 else k)
              (writeFile dir ((saveOne existing pk sf now (uuid k) q).1.filename_stem ++ ".yml")
                (.record (saveOne existing pk sf now (uuid k) q).1)) n r h
          exact ⟨s, by simp only [saveLoop, List.getElem?_cons_succ]; exact hs, hm⟩

/-- Claim C2, counterexample: pushing a rule with a non-empty `id` into an
empty namespace (so there is no name match) does *not* assign a fresh
UUID: the incoming `id` is kept (only `created_at`/`updated_at` are set),
although the claim says every non-matching rule gets a fresh id. -/
theorem save_rules_keeps_carried_id :
    existingOf [] = []
    ∧ (save_rules [] "demo" [pushKeepId] "cursor" "T1" (fun _ => "fresh-uuid")).stored.map
        Rule.id = ["old-id"]
    ∧ "old-id" ≠ "fresh-uuid"
    ∧ (save_rules [] "demo" [pushKeepId] "cursor" "T1" (fun _ => "fresh-uuid")).stored.map
        Rule.created_at = [some "T1"] := by
  decide

/-- Claim C2, amended: for every `save_rules` call, the stored list has one
output per incoming rule and, for each incoming rule `r`: content, scope,
activation, globs, name and description are taken from `r`;
`updated_at = now`; if the (successfully) loaded existing set contains a
rule with non-empty id and the same name, its `id` and `created_at` are
carried forward; otherwise `created_at = now` and the rule receives a
fresh UUID only when its own `id` is empty — a non-empty incoming `id` is
kept. -/
theorem save_rules_identity_continuity (files : List FileEntry) (pk : String)
    (rules : List Rule) (sf now : String) (uuid : Nat → String) :
    (save_rules files pk rules sf now uuid).stored.length = rules.length
    ∧ ∀ (i : Nat) (r : Rule), rules[i]? = some r →
        ∃ s, (save_rules files pk rules sf now uuid).stored[i]? = some s
          ∧ storedMatches (existingOf files) pk sf now uuid r s := by
  constructor
  · simpa [save_rules] using
      saveLoop_stored_length (existingOf files) pk sf now uuid rules 0
        (files.filter (fun f => !(isYml f)))
  · intro i r h
    simpa [save_rules] using
      saveLoop_stored_matches (existingOf files) pk sf now uuid rules 0
        (files.filter (fun f => !(isYml f))) i r h

/-- Witness for `save_rules_identity_continuity`: the spec's
identity-continuity scenario — same name, new content — keeps `id`/`created_at`
and refreshes `content`/`updated_at`. -/
theorem save_rules_identity_continuity_witness :
    ([pushA] : List Rule)[0]? = some pushA
    ∧ (∃ s, (save_rules dirA "demo" [pushA] "cursor" "T1" (fun _ => "U0")).stored[0]? = some s
        ∧ storedMatches (existingOf dirA) "demo" "cursor" "T1" (fun _ => "U0") pushA s)
    ∧ (save_rules dirA "demo" [pushA] "cursor" "T1" (fun _ => "U0")).stored.map Rule.id = ["R1"]
    ∧ (save_rules dirA "demo" [pushA] "cursor" "T1" (fun _ => "U0")).stored.map
        Rule.created_at = [some "T0"]
    ∧ (save_rules dirA "demo" [pushA] "cursor" "T1" (fun _ => "U0")).stored.map
        Rule.content = ["y"]
    ∧ (save_rules dirA "demo" [pushA] "cursor" "T1" (fun _ => "U0")).stored.map
        Rule.updated_at = [some "T1"] :=
  ⟨rfl,
   (save_rules_identity_continuity dirA "demo" [pushA] "cursor" "T1" (fun _ => "U0")).2 0 pushA rfl,
   by decide, by decide, by decide, by decide⟩

/-! ### Facts about the directory after saving -/

theorem mem_writeFile (files : List FileEntry) (nm : String) (d : FileData) (f : FileEntry) :
    f ∈ writeFile files nm d ↔ (f = ⟨nm, d⟩ ∨ (f ∈ files ∧ f.name ≠ nm)) := by
  simp only [writeFile, List.mem_append, List.mem_filter, List.mem_singleton, bne_iff_ne,
    ne_eq]
  tauto

theorem namePresent_writeFile (files : List FileEntry) (nm n : String) (d : FileData)
    (h : ∃ f ∈ files, f.name = nm) : ∃ f ∈ writeFile files n d, f.name = nm := by
  by_cases he : nm = n
  · exact ⟨⟨n, d⟩, (mem_writeFile files n d _).mpr (Or.inl rfl), he.symm⟩
  · obtain ⟨f, hf, hfn⟩ := h
    refine ⟨f, (mem_writeFile files n d f).mpr (Or.inr ⟨hf, ?_⟩), hfn⟩
    rw [hfn]; exact he

theorem saveLoop_dir_provenance (existing : List Rule) (pk sf now : String)
    (uuid : Nat → String) :
    ∀ (rules : List Rule) (k : Nat) (dir : List FileEntry) (f : FileEntry),
      f ∈ (saveLoop existing pk sf now uuid rules k dir).1 →
      f ∈ dir ∨ ∃ s ∈ (saveLoop existing pk sf now uuid rules k dir).2,
        f.name = s.filename_stem ++ ".yml" ∧ f.data = FileData.record s := by
  intro rules
  induction rules with
  | nil => intro k dir f hf; exact Or.inl hf
  | cons q rs ih =>
      intro k dir f hf
      simp only [saveLoop] at hf ⊢
      rcases ih _ _ f hf with hdir' | ⟨s, hsmem, hname, hdata⟩
      · rcases (mem_writeFile _ _ _ f).mp hdir' with rfl | ⟨hmem, _⟩
        · exact Or.inr ⟨_, List.mem_cons_self _ _, rfl, rfl⟩
        · exact Or.inl hmem
      · exact Or.inr ⟨s, List.mem_cons_of_mem _ hsmem, hname, hdata⟩

theorem saveLoop_preserves_name (existing : List Rule) (pk sf now : String)
    (uuid : Nat → String) :
    ∀ (rules : List Rule) (k : Nat) (dir : List FileEntry) (nm : String),
      (∃ f ∈ dir, f.name = nm) →
      ∃ f ∈ (saveLoop existing pk sf now uuid rules k dir).1, f.name = nm := by
  intro rules
  induction rules with
  | nil => intro k dir nm h; exact h
  | cons q rs ih =>
      intro k dir nm h
      simp only [saveLoop]
      exact ih _ _ nm (namePresent_writeFile dir nm _ _ h)

theorem saveLoop_file_for_stored (existing : List Rule) (pk sf now : String)
    (uuid : Nat → String) :
    ∀ (rules : List Rule) (k : Nat) (dir : List FileEntry) (s : Rule),
      s ∈ (saveLoop existing pk sf now uuid rules k dir).2 →
      ∃ f ∈ (saveLoop existing pk sf now uuid rules k dir).1,
        f.name = s.filename_stem ++ ".yml" := by
  intro rules
  induction rules with
  | nil => intro k dir s hs; cases hs
  | cons q rs ih =>
      intro k dir s hs
      simp only [saveLoop] at hs ⊢
      rcases List.mem_cons.mp hs with rfl | hs'
      · apply saveLoop_preserves_name
        exact ⟨_, (mem_writeFile _ _ _ _).mpr (Or.inl rfl), rfl⟩
      · exact ih _ _ s hs'

theorem writeFile_names_nodup (files : List FileEntry) (nm : String) (d : FileData)
    (h : (files.map FileEntry.name).Nodup) :
    ((writeFile files nm d).map FileEntry.name).Nodup := by
  have h1 : ((files.filter (fun f => f.name != nm)).map FileEntry.name).Nodup :=
    h.sublist ((List.filter_sublist _).map _)
  have h2 : nm ∉ (files.filter (fun f => f.name != nm)).map FileEntry.name := by
    simp only [List.mem_map, List.mem_filter, bne_iff_ne, ne_eq]
    rintro ⟨f, ⟨_, hne⟩, heq⟩
    exact hne heq
  simp only [writeFile, List.map_append, List.map_cons, List.map_nil]
  exact List.Nodup.append h1 (List.nodup_singleton nm)
    (fun a ha hb => by rw [List.mem_singleton] at hb; subst hb; exact h2 ha)

theorem saveLoop_dir_nodup (existing : List Rule) (pk sf now : String)
    (uuid : Nat → String) :
    ∀ (rules : List Rule) (k : Nat) (dir : List FileEntry),
      (dir.map FileEntry.name).Nodup →
      (((saveLoop existing pk sf now uuid rules k dir).1.map FileEntry.name).Nodup) := by
  intro rules
  induction rules with
  | nil => intro k dir h; exact h
  | cons q rs ih =>
      intro k dir h
      simp only [saveLoop]
      exact ih _ _ (writeFile_names_nodup dir _ _ h)

/-- Claim C3, counterexample: `save_rules` does *not* leave one record file
per rule in the set: rules whose names sanitize to the same stem collapse
into one file (the later write overwrites the earlier one). -/
theorem save_rules_stem_collision :
    ([ruleLowerA, ruleUpperA] : List Rule).length = 2
    ∧ ruleLowerA.filename_stem = ruleUpperA.filename_stem
    ∧ (save_rules [] "demo" [ruleLowerA, ruleUpperA] "c" "T1" (fun _ => "u")).stored.length = 2
    ∧ (save_rules [] "demo" [ruleLowerA, ruleUpperA] "c" "T1" (fun _ => "u")).dir.length = 1
    ∧ (save_rules [] "demo" [ruleLowerA, ruleUpperA] "c" "T1" (fun _ => "u")).dir.map
        FileEntry.name = ["a.yml"] := by
  decide

/-- Claim C3, amended: `save_rules` is a replace-set write: afterwards every
`.yml` record file in the namespace belongs to the newly stored set (every
pre-existing record file was deleted or overwritten — in particular every
record whose name is absent from the new set is gone), each stored rule has
its record file (one file per *distinct* filename stem; colliding stems
collapse, later write winning), and filenames remain unique. -/
theorem save_rules_replace_set (files : List FileEntry) (pk : String)
    (rules : List Rule) (sf now : String) (uuid : Nat → String)
    (hnodup : (files.map FileEntry.name).Nodup) :
    (∀ f ∈ (save_rules files pk rules sf now uuid).dir, isYml f = true →
        ∃ s ∈ (save_rules files pk rules sf now uuid).stored,
          f.name = s.filename_stem ++ ".yml" ∧ f.data = FileData.record s)
    ∧ (∀ s ∈ (save_rules files pk rules sf now uuid).stored,
        ∃ f ∈ (save_rules files pk rules sf now uuid).dir,
          f.name = s.filename_stem ++ ".yml")
    ∧ (((save_rules files pk rules sf now uuid).dir.map FileEntry.name).Nodup) := by
  have hdir : (save_rules files pk rules sf now uuid).dir
      = (saveLoop (existingOf files) pk sf now uuid rules 0
          (files.filter (fun f => !(isYml f)))).1 := rfl
  have hstored : (save_rules files pk rules sf now uuid).stored
      = (saveLoop (existingOf files) pk sf now uuid rules 0
          (files.filter (fun f => !(isYml f)))).2 := rfl
  refine ⟨?_, ?_, ?_⟩
  · intro f hf hy
    rw [hdir] at hf
    rcases saveLoop_dir_provenance (existingOf files) pk sf now uuid rules 0 _ f hf with
      hcl | ⟨s, hs, hn, hd⟩
    · rw [List.mem_filter] at hcl
      rw [hy] at hcl
      simp at hcl
    · exact ⟨s, hstored ▸ hs, hn, hd⟩
  · intro s hs
    rw [hstored] at hs
    rw [hdir]
    exact saveLoop_file_for_stored (existingOf files) pk sf now uuid rules 0 _ s hs
  · rw [hdir]
    apply saveLoop_dir_nodup
    exact hnodup.sublist ((List.filter_sublist _).map _)

/-- Witness for `save_rules_replace_set`: the spec's scenario — push `a`
and `b`, then push only `a` with changed content. The store ends with one
record file whose rule keeps id `IDA` but has new content and
`updated_at`; the record for `b` is gone. -/
theorem save_rules_replace_set_witness :
    (demoDir1.map FileEntry.name).Nodup
    ∧ (∀ f ∈ (save_rules demoDir1 "demo" [pushA] "cursor" "T1" uuidSeq).dir, isYml f = true →
        ∃ s ∈ (save_rules demoDir1 "demo" [pushA] "cursor" "T1" uuidSeq).stored,
          f.name = s.filename_stem ++ ".yml" ∧ f.data = FileData.record s)
    ∧ demoDir1.map FileEntry.name = ["a.yml", "b.yml"]
    ∧ (save_rules demoDir1 "demo" [pushA] "cursor" "T1" uuidSeq).dir.map FileEntry.name
        = ["a.yml"]
    ∧ (save_rules demoDir1 "demo" [pushA] "cursor" "T1" uuidSeq).stored.map Rule.id = ["IDA"]
    ∧ (save_rules demoDir1 "demo" [pushA] "cursor" "T1" uuidSeq).stored.map Rule.content = ["y"]
    ∧ (save_rules demoDir1 "demo" [pushA] "cursor" "T1" uuidSeq).stored.map Rule.created_at
        = [some "T0"]
    ∧ (save_rules demoDir1 "demo" [pushA] "cursor" "T1" uuidSeq).stored.map Rule.updated_at
        = [some "T1"] :=
  ⟨by decide,
   (save_rules_replace_set demoDir1 "demo" [pushA] "cursor" "T1" uuidSeq (by decide)).1,
   by decide, by decide, by decide, by decide, by decide, by decide⟩

/-! ### Claims about the Windsurf soft limits -/

theorem dropWhile_replicate_of_neg (p : α → Bool) (a : α) (h : p a = false) (n : Nat) :
    List.dropWhile p (List.replicate n a) = List.replicate n a := by
  cases n with
  | zero => rfl
  | succ m => rw [List.replicate_succ, List.dropWhile_cons, h]; simp

theorem windsurfWriteLoop_total :
    ∀ (rules : List Rule) (fs : FS) (total : Nat) (ws : List String),
      (windsurfWriteLoop rules fs total ws).2.1 = total + (rules.map wsFileLen).sum := by
  intro rules
  induction rules with
  | nil => intro fs total ws; simp [windsurfWriteLoop]
  | cons r rs ih =>
      intro fs total ws
      simp only [windsurfWriteLoop, ih, List.map_cons, List.sum_cons, wsFileLen]
      omega

theorem windsurfWriteLoop_warnings :
    ∀ (rules : List Rule) (fs : FS) (total : Nat) (ws : List String),
      (windsurfWriteLoop rules fs total ws).2.2.length
        = ws.length + (rules.filter (fun r => decide (6000 < wsFileLen r))).length := by
  intro rules
  induction rules with
  | nil => intro fs total ws; simp [windsurfWriteLoop]
  | cons r rs ih =>
      intro fs total ws
      by_cases h6 : 6000 < wsFileLen r
      · simp only [windsurfWriteLoop, ih, List.filter_cons]
        rw [if_pos (show 6000 < (trimEnd r.content ++ "\n").length from h6)]
        simp [h6]
        omega
      · simp only [windsurfWriteLoop, ih, List.filter_cons]
        rw [if_neg (show ¬ 6000 < (trimEnd r.content ++ "\n").length from h6)]
        simp [h6]

theorem FS_write_preserves_path (fs : FS) (p q : List String) (c : String)
    (h : ∃ e ∈ fs, e.1 = p) : ∃ e ∈ FS.write fs q c, e.1 = p := by
  by_cases he : p = q
  · refine ⟨(q, c), ?_, he.symm⟩
    simp [FS.write]
  · obtain ⟨e, hefs, hep⟩ := h
    refine ⟨e, ?_, hep⟩
    simp only [FS.write, List.mem_append, List.mem_filter]
    exact Or.inl ⟨hefs, by simp [bne_iff_ne, hep, he]⟩

theorem windsurfWriteLoop_preserves :
    ∀ (rules : List Rule) (fs : FS) (total : Nat) (ws : List String) (p : List String),
      (∃ e ∈ fs, e.1 = p) →
      ∃ e ∈ (windsurfWriteLoop rules fs total ws).1, e.1 = p := by
  intro rules
  induction rules with
  | nil => intro fs total ws p h; exact h
  | cons r rs ih =>
      intro fs total ws p h
      simp only [windsurfWriteLoop]
      exact ih _ _ _ p (FS_write_preserves_path fs p _ _ h)

theorem windsurfWriteLoop_files :
    ∀ (rules : List Rule) (fs : FS) (total : Nat) (ws : List String) (r : Rule), r ∈ rules →
      ∃ e ∈ (windsurfWriteLoop rules fs total ws).1,
        e.1 = [".windsurf", "rules", r.filename_stem ++ ".md"] := by
  intro rules
  induction rules with
  | nil => intro fs total ws r hr; cases hr
  | cons q rs ih =>
      intro fs total ws r hr
      rcases List.mem_cons.mp hr with rfl | hr'
      · simp only [windsurfWriteLoop]
        apply windsurfWriteLoop_preserves
        refine ⟨([".windsurf", "rules", r.filename_stem ++ ".md"], trimEnd r.content ++ "\n"),
          ?_, rfl⟩
        simp [FS.write]
      · simp only [windsurfWriteLoop]
        exact ih _ _ _ r hr'

/-- Claim C10, counterexample: the per-file warning threshold is measured on
the *written file* (`content.trim_end() + "\n"`), not on the rule's
content: `wsRule`'s content exceeds 6,000 characters, yet its write emits
no warning at all (the trimmed file is exactly 6,000 characters). -/
theorem windsurf_limit_ignores_raw_content_length :
    6000 < wsRule.content.length
    ∧ windsurfWrite [] [wsRule]
        = .ok ⟨[([".windsurf", "rules", "big.md"], trimEnd wsRule.content ++ "\n")], []⟩ := by
  have hdata : wsRule.content.data = List.replicate 5999 'a' ++ [' ', ' '] := rfl
  have hlen : wsRule.content.length = 6001 := by
    show wsRule.content.data.length = 6001
    rw [hdata, List.length_append, List.length_replicate]
    rw [show ([' ', ' '] : List Char).length = 2 from rfl]
  have htrim : trimEnd wsRule.content = String.mk (List.replicate 5999 'a') := by
    show String.mk ((wsRule.content.data.reverse.dropWhile Char.isWhitespace).reverse) = _
    rw [hdata, List.reverse_append, List.reverse_replicate]
    rw [show ([' ', ' '] : List Char).reverse = [' ', ' '] from rfl]
    rw [show (([' ', ' '] : List Char) ++ List.replicate 5999 'a')
        = ' ' :: ' ' :: List.replicate 5999 'a' from rfl]
    rw [List.dropWhile_cons, if_pos (by decide), List.dropWhile_cons, if_pos (by decide)]
    rw [dropWhile_replicate_of_neg Char.isWhitespace 'a' (by decide), List.reverse_replicate]
  have hfile : (trimEnd wsRule.content ++ "\n").length = 6000 := by
    rw [htrim, String.length_append, String.length_mk, List.length_replicate]
    rw [show ("\n" : String).length = 1 from rfl]
  refine ⟨by rw [hlen]; norm_num, ?_⟩
  have hstem : wsRule.filename_stem = "big" := by decide
  unfold windsurfWrite
  rw [if_neg (by decide)]
  simp only [windsurfWriteLoop, hfile, hstem]
  rw [show ("big" ++ ".md" : String) = "big.md" from rfl]
  norm_num [FS.write]

/-- Claim C10, amended: in the project layout (no user-scope rule), the
Windsurf size limits are advisory only: the write never returns an error
and every rule's file is written; there is exactly one warning per rule
whose *written file* (trimmed content plus newline) exceeds 6,000
characters, plus one extra warning when the total written content exceeds
12,000 characters. -/
theorem windsurf_soft_limits (fs : FS) (rules : List Rule)
    (hproj : ∀ r ∈ rules, r.scope ≠ Scope.user) :
    ∃ out, windsurfWrite fs rules = .ok out
      ∧ out.warnings.length
          = (rules.filter (fun r => decide (6000 < wsFileLen r))).length
            + (if 12000 < (rules.map wsFileLen).sum then 1 else 0)
      ∧ ∀ r ∈ rules, ∃ e ∈ out.fs, e.1 = [".windsurf", "rules", r.filename_stem ++ ".md"] := by
  have hany : rules.any (fun r => r.scope == Scope.user) = false := by
    rw [List.any_eq_false]
    intro r hr
    simpa using hproj r hr
  have htot := windsurfWriteLoop_total rules fs 0 []
  have hwarn := windsurfWriteLoop_warnings rules fs 0 []
  refine ⟨⟨(windsurfWriteLoop rules fs 0 []).1,
      if 12000 < (windsurfWriteLoop rules fs 0 []).2.1
      then (windsurfWriteLoop rules fs 0 []).2.2
        ++ [windsurfTotalWarning (windsurfWriteLoop rules fs 0 []).2.1]
      else (windsurfWriteLoop rules fs 0 []).2.2⟩, ?_, ?_, ?_⟩
  · simp [windsurfWrite, hany]
  · simp only []
    rw [htot]
    by_cases h12 : 12000 < (rules.map wsFileLen).sum
    · rw [if_pos (by omega : 12000 < 0 + (rules.map wsFileLen).sum), if_pos h12]
      rw [List.length_append, hwarn]
      simp
    · rw [if_neg (by omega : ¬ 12000 < 0 + (rules.map wsFileLen).sum), if_neg h12]
      rw [hwarn]
      simp
  · intro r hr
    simpa using windsurfWriteLoop_files rules fs 0 [] r hr

/-- Witness for `windsurf_soft_limits` at a small project rule: the write
succeeds with zero warnings and the file is produced. -/
theorem windsurf_soft_limits_witness :
    (∀ r ∈ ([wsSmall] : List Rule), r.scope ≠ Scope.user)
    ∧ ∃ out, windsurfWrite [] [wsSmall] = .ok out
      ∧ out.warnings.length
          = (([wsSmall] : List Rule).filter (fun r => decide (6000 < wsFileLen r))).length
            + (if 12000 < (([wsSmall] : List Rule).map wsFileLen).sum then 1 else 0)
      ∧ ∀ r ∈ ([wsSmall] : List Rule), ∃ e ∈ out.fs,
          e.1 = [".windsurf", "rules", r.filename_stem ++ ".md"] :=
  ⟨by decide, windsurf_soft_limits [] [wsSmall] (by decide)⟩

/-! ### Claims about the round trip -/

theorem trimEnd_append_newline (s : String) : trimEnd (s ++ "\n") = trimEnd s := by
  unfold trimEnd
  rw [String.data_append]
  rw [show ("\n" : String).data = ['\n'] from rfl]
  rw [List.reverse_append]
  rw [show (['\n'] : List Char).reverse = ['\n'] from rfl]
  rw [show ((['\n'] : List Char) ++ s.data.reverse) = '\n' :: s.data.reverse from rfl]
  rw [List.dropWhile_cons, if_pos (by decide : Char.isWhitespace '\n' = true)]

theorem trimBoth_append_newline (s : String) : trimBoth (s ++ "\n") = trimBoth s := by
  unfold trimBoth
  rw [String.data_append, show ("\n" : String).data = ['\n'] from rfl]
  rw [List.dropWhile_append]
  by_cases he : (s.data.dropWhile Char.isWhitespace).isEmpty
  · rw [if_pos he]
    rw [List.isEmpty_iff] at he
    rw [he]
    rw [show List.dropWhile Char.isWhitespace ['\n'] = ([] : List Char) from by decide]
  · rw [if_neg he]
    rw [List.reverse_append]
    rw [show (['\n'] : List Char).reverse = ['\n'] from rfl]
    rw [show ((['\n'] : List Char) ++ (s.data.dropWhile Char.isWhitespace).reverse)
        = '\n' :: (s.data.dropWhile Char.isWhitespace).reverse from rfl]
    rw [List.dropWhile_cons, if_pos (by decide : Char.isWhitespace '\n' = true)]

/-- Claim C1, counterexample: the round trip is not the identity on
representable rules. `ruleDeploy` is representable in the Claude format
(it is exactly what `ClaudeParser` yields for
`.claude/commands/deploy.md`), but writing it and re-parsing yields a rule
whose activation (`Always` instead of `OnDemand`) and name (`claude`
instead of `deploy`) have changed. -/
theorem claude_round_trip_not_identity :
    claudeParse false fsCommands = [ruleDeploy]
    ∧ claudeWrite [] [ruleDeploy] = [(["CLAUDE.md"], "x\n")]
    ∧ claudeParse false (claudeWrite [] [ruleDeploy]) = [ruleClaudeNorm]
    ∧ ruleClaudeNorm.activation ≠ ruleDeploy.activation
    ∧ ruleClaudeNorm.name ≠ ruleDeploy.name := by
  decide

/-- Claim C1, amended: what the round trip does preserve is the rule's
*content*, up to the trailing-whitespace trimming the codecs always apply;
activation, name and description survive only where the format encodes
them. For the plain-markdown formats Claude and Gemini: writing a single
non-settings rule with end-trimmed, non-blank content and re-parsing the
written directory yields exactly one rule with the same content, but with
the format's canonical scope, activation and name. -/
theorem round_trip_preserves_content (r : Rule)
    (hname : r.name ≠ some "settings")
    (htrim : trimEnd r.content = r.content)
    (hnb : trimBoth r.content ≠ "") :
    claudeParse false (claudeWrite [] [r])
      = [{ scope := .project, activation := .always, name := some "claude",
           content := r.content }]
    ∧ geminiParse (geminiWrite [] [r])
      = [{ scope := .project, activation := .always, name := some "gemini",
           content := r.content }] := by
  have hb : (r.name == some "settings") = false := beq_eq_false_iff_ne.mpr hname
  have hw : claudeWrite [] [r] = [(["CLAUDE.md"], r.content ++ "\n")] := by
    simp [claudeWrite, hb, htrim, FS.write]
  have hgw : geminiWrite [] [r] = [(["GEMINI.md"], r.content ++ "\n")] := by
    simp [geminiWrite, join_rules, FS.write]
  constructor
  · rw [hw]
    have hs : FS.read [(["CLAUDE.md"], r.content ++ "\n")] [".claude", "settings.json"]
        = none := rfl
    have hm : FS.read [(["CLAUDE.md"], r.content ++ "\n")] ["CLAUDE.md"]
        = some (r.content ++ "\n") := rfl
    have h1 : FS.filesIn [(["CLAUDE.md"], r.content ++ "\n")] [".claude", "rules"] = [] := rfl
    have h2 : FS.filesIn [(["CLAUDE.md"], r.content ++ "\n")] [".claude", "commands"] = [] := rfl
    have h3 : FS.subdirsIn [(["CLAUDE.md"], r.content ++ "\n")] [".claude", "skills"] = [] := rfl
    have h4 : FS.filesIn [(["CLAUDE.md"], r.content ++ "\n")] [".claude", "agents"] = [] := rfl
    simp only [claudeParse, parse_md_dir, parse_skill_dir, Bool.false_eq_true, if_false,
      List.singleton_append, List.nil_append, hs, hm, h1, h2, h3, h4,
      List.filterMap_nil, List.append_nil, trimBoth_append_newline,
      trimEnd_append_newline, htrim]
    rw [if_neg hnb]
  · rw [hgw]
    have hm : FS.read [(["GEMINI.md"], r.content ++ "\n")] ["GEMINI.md"]
        = some (r.content ++ "\n") := rfl
    simp only [geminiParse, hm, trimBoth_append_newline, trimEnd_append_newline, htrim]
    rw [if_neg hnb]

/-- Witness for `round_trip_preserves_content` at a concrete command-like
rule: write-then-parse keeps the content `x` but renames to `claude` with
activation `Always`. -/
theorem round_trip_preserves_content_witness :
    ruleDeploy.name ≠ some "settings"
    ∧ trimEnd ruleDeploy.content = ruleDeploy.content
    ∧ trimBoth ruleDeploy.content ≠ ""
    ∧ claudeParse false (claudeWrite [] [ruleDeploy])
        = [{ scope := .project, activation := .always, name := some "claude",
             content := ruleDeploy.content }]
    ∧ geminiParse (geminiWrite [] [ruleDeploy])
        = [{ scope := .project, activation := .always, name := some "gemini",
             content := ruleDeploy.content }] :=
  ⟨by decide, by decide, by decide,
   (round_trip_preserves_content ruleDeploy (by decide) (by decide) (by decide)).1,
   (round_trip_preserves_content ruleDeploy (by decide) (by decide) (by decide)).2⟩
